import Mathlib

/-!
Verification of the Black-Scholes pricing engine (`src/app.py`).

The mathematical core of the program consists of four pure functions,
`d1`, `d2`, `black_scholes` and `calculate_greeks`, built from `np.log`,
`np.sqrt`, `np.exp`, `scipy.stats.norm.cdf` and `scipy.stats.norm.pdf`.
We embed the floating-point computation shallowly over the real numbers:
`np.log`, `np.sqrt`, `np.exp` become `Real.log`, `Real.sqrt`, `Real.exp`,
and `norm.cdf` / `norm.pdf` become the mathematical standard normal
cumulative distribution function and density that scipy approximates.
In this model every value is a (finite) real number; statements about
floating-point tolerance become exact identities.
-/

open MeasureTheory Filter Set intervalIntegral

/-- Standard normal probability density function: the mathematical function
computed by `scipy.stats.norm.pdf`. -/
noncomputable def norm_pdf (x : ℝ) : ℝ :=
  (Real.sqrt (2 * Real.pi))⁻¹ * Real.exp (-(x ^ 2) / 2)

/-- Standard normal cumulative distribution function: the mathematical function
computed by `scipy.stats.norm.cdf`, written as `1/2` plus the integral of the
density from `0`. -/
noncomputable def norm_cdf (x : ℝ) : ℝ :=
  1 / 2 + ∫ t in (0:ℝ)..x, norm_pdf t

/-- Embedding of `d1` from `src/app.py`:
`(np.log(S / K) + (r + 0.5 * sigma ** 2) * T) / (sigma * np.sqrt(T))`. -/
noncomputable def d1 (S K T r sigma : ℝ) : ℝ :=
  (Real.log (S / K) + (r + 0.5 * sigma ^ 2) * T) / (sigma * Real.sqrt T)

/-- Embedding of `d2` from `src/app.py`:
`d1(S, K, T, r, sigma) - sigma * np.sqrt(T)`. -/
noncomputable def d2 (S K T r sigma : ℝ) : ℝ :=
  d1 S K T r sigma - sigma * Real.sqrt T

/-- Embedding of `black_scholes` from `src/app.py`, returning the pair
`(call_price, put_price)`. -/
noncomputable def black_scholes (S K T r sigma : ℝ) : ℝ × ℝ :=
  (S * norm_cdf (d1 S K T r sigma) -
      K * Real.exp (-r * T) * norm_cdf (d2 S K T r sigma),
    K * Real.exp (-r * T) * norm_cdf (-(d2 S K T r sigma)) -
      S * norm_cdf (-(d1 S K T r sigma)))

/-- Embedding of `calculate_greeks` from `src/app.py`, returning the tuple
`(delta, theta, vega, rho)`. -/
noncomputable def calculate_greeks (S K T r sigma : ℝ) : ℝ × ℝ × ℝ × ℝ :=
  (norm_cdf (d1 S K T r sigma),
    -((S * norm_pdf (d1 S K T r sigma) * sigma) / (2 * Real.sqrt T)) -
      r * K * Real.exp (-r * T) * norm_cdf (d2 S K T r sigma),
    S * norm_pdf (d1 S K T r sigma) * Real.sqrt T,
    K * T * Real.exp (-r * T) * norm_cdf (d2 S K T r sigma))

/-- Error kind named by the specification for rejected inputs. -/
inductive PricingError where
  | invalidParameter : PricingError
deriving DecidableEq

/-- Run of the source engine with its observable failure behaviour made
explicit. The Python code performs no input validation and raises no
exception on any input (`np.log`, division and `np.sqrt` emit warnings and
produce numeric, possibly non-finite, results), so every run returns
`Except.ok` with the computed pair. -/
noncomputable def black_scholesRun (S K T r sigma : ℝ) :
    Except PricingError (ℝ × ℝ) :=
  Except.ok (black_scholes S K T r sigma)

theorem norm_pdf_neg (x : ℝ) : norm_pdf (-x) = norm_pdf x := by
  simp [norm_pdf, neg_sq]

theorem norm_pdf_pos (x : ℝ) : 0 < norm_pdf x := by
  have h2pi : 0 < 2 * Real.pi := by positivity
  have := Real.sqrt_pos.mpr h2pi
  rw [norm_pdf]
  positivity

theorem intervalIntegral_norm_pdf_neg (x : ℝ) :
    ∫ t in (0:ℝ)..(-x), norm_pdf t = -∫ t in (0:ℝ)..x, norm_pdf t := by
  have h1 := intervalIntegral.integral_comp_neg (a := (0:ℝ)) (b := x)
    (f := norm_pdf)
  simp only [norm_pdf_neg, neg_zero] at h1
  have h2 := intervalIntegral.integral_symm (f := norm_pdf) (μ := volume) 0 (-x)
  linarith

theorem norm_cdf_add_neg (x : ℝ) : norm_cdf x + norm_cdf (-x) = 1 := by
  have h := intervalIntegral_norm_pdf_neg x
  rw [norm_cdf, norm_cdf, h]
  ring

/-- Helper form of put-call parity, shared by several results below: the
algebraic identity holds for all real inputs because the two CDF symmetry
terms cancel. -/
theorem parity_aux (S K T r sigma : ℝ) :
    (black_scholes S K T r sigma).1 - (black_scholes S K T r sigma).2 =
      S - K * Real.exp (-r * T) := by
  have h1 := norm_cdf_add_neg (d1 S K T r sigma)
  have h2 := norm_cdf_add_neg (d2 S K T r sigma)
  simp only [black_scholes]
  linear_combination S * h1 - K * Real.exp (-r * T) * h2

theorem continuous_norm_pdf : Continuous norm_pdf := by
  unfold norm_pdf
  fun_prop

theorem integrable_norm_pdf : Integrable norm_pdf := by
  have h := integrable_exp_neg_mul_sq (b := (1/2 : ℝ)) (by norm_num)
  have h2 : (fun x : ℝ => Real.exp (-(1/2 : ℝ) * x ^ 2)) =
      fun x : ℝ => Real.exp (-(x ^ 2) / 2) := by
    funext t
    congr 1
    ring
  rw [h2] at h
  exact h.const_mul _

theorem integral_norm_pdf : ∫ x, norm_pdf x = 1 := by
  have h := integral_gaussian (1/2 : ℝ)
  have h2 : (fun x : ℝ => Real.exp (-(1/2 : ℝ) * x ^ 2)) =
      fun x : ℝ => Real.exp (-(x ^ 2) / 2) := by
    funext t
    congr 1
    ring
  rw [h2] at h
  have hpi : Real.pi / (1/2 : ℝ) = 2 * Real.pi := by ring
  rw [hpi] at h
  have hpos : (0:ℝ) < Real.sqrt (2 * Real.pi) :=
    Real.sqrt_pos.mpr (by positivity)
  simp only [norm_pdf]
  rw [integral_mul_left, h, inv_mul_cancel₀ hpos.ne']

theorem integral_Iic_zero_norm_pdf : ∫ t in Iic (0:ℝ), norm_pdf t = 1 / 2 := by
  have hint := integrable_norm_pdf
  have hA := integral_comp_neg_Iic (0:ℝ) norm_pdf
  simp only [norm_pdf_neg, neg_zero] at hA
  have hsum := intervalIntegral.integral_Iic_add_Ioi (b := (0:ℝ))
    (f := norm_pdf) hint.integrableOn hint.integrableOn
  rw [integral_norm_pdf] at hsum
  linarith

theorem norm_cdf_eq_integral_Iic (x : ℝ) :
    norm_cdf x = ∫ t in Iic x, norm_pdf t := by
  have hint := integrable_norm_pdf
  have h := intervalIntegral.integral_Iic_sub_Iic (μ := volume) (f := norm_pdf)
    (a := 0) (b := x) hint.integrableOn hint.integrableOn
  rw [integral_Iic_zero_norm_pdf] at h
  rw [norm_cdf]
  linarith

theorem norm_cdf_nonneg (x : ℝ) : 0 ≤ norm_cdf x := by
  rw [norm_cdf_eq_integral_Iic]
  exact setIntegral_nonneg measurableSet_Iic fun t _ => (norm_pdf_pos t).le

theorem norm_cdf_le_one (x : ℝ) : norm_cdf x ≤ 1 := by
  rw [norm_cdf_eq_integral_Iic]
  calc ∫ t in Iic x, norm_pdf t ≤ ∫ t, norm_pdf t :=
        setIntegral_le_integral integrable_norm_pdf
          (Eventually.of_forall fun t => (norm_pdf_pos t).le)
    _ = 1 := integral_norm_pdf

/-- Claim C1: put-call parity. For every input with `S, K, T, sigma > 0` the
pair returned by `black_scholes` satisfies
`callPrice - putPrice = S - K * exp (-r * T)`; both components are real
numbers, hence finite in this model. -/
theorem put_call_parity (S K T r sigma : ℝ) (hS : 0 < S) (hK : 0 < K)
    (hT : 0 < T) (hsig : 0 < sigma) :
    (black_scholes S K T r sigma).1 - (black_scholes S K T r sigma).2 =
      S - K * Real.exp (-r * T) :=
  parity_aux S K T r sigma

theorem put_call_parity_witness :
    (black_scholes 1 1 1 0 1).1 - (black_scholes 1 1 1 0 1).2 =
      1 - 1 * Real.exp (-0 * 1) :=
  put_call_parity 1 1 1 0 1 (by norm_num) (by norm_num) (by norm_num)
    (by norm_num)

/-- Claim C2: for every input with `S, K, T, sigma > 0`, `black_scholes`
returns exactly the pair whose first component is
`S * Phi (d1) - K * exp (-r * T) * Phi (d2)` and whose second component is
`K * exp (-r * T) * Phi (-d2) - S * Phi (-d1)`, where `d1` and `d2` are the
values of the engine operations of the same name on the same input. -/
theorem black_scholes_formula (S K T r sigma : ℝ) (hS : 0 < S) (hK : 0 < K)
    (hT : 0 < T) (hsig : 0 < sigma) :
    black_scholes S K T r sigma =
      (S * norm_cdf (d1 S K T r sigma) -
          K * Real.exp (-r * T) * norm_cdf (d2 S K T r sigma),
        K * Real.exp (-r * T) * norm_cdf (-d2 S K T r sigma) -
          S * norm_cdf (-d1 S K T r sigma)) := rfl

theorem black_scholes_formula_witness :
    black_scholes 1 1 1 0 1 =
      (1 * norm_cdf (d1 1 1 1 0 1) -
          1 * Real.exp (-0 * 1) * norm_cdf (d2 1 1 1 0 1),
        1 * Real.exp (-0 * 1) * norm_cdf (-d2 1 1 1 0 1) -
          1 * norm_cdf (-d1 1 1 1 0 1)) :=
  black_scholes_formula 1 1 1 0 1 (by norm_num) (by norm_num) (by norm_num)
    (by norm_num)

/-- Claim C5: for every input with `S, K, T, sigma > 0`, the operation `d1`
returns `(log (S / K) + (r + 0.5 * sigma ^ 2) * T) / (sigma * sqrt T)`. The
embedding is a pure function, so the call has no side effects. -/
theorem d1_formula (S K T r sigma : ℝ) (hS : 0 < S) (hK : 0 < K) (hT : 0 < T)
    (hsig : 0 < sigma) :
    d1 S K T r sigma =
      (Real.log (S / K) + (r + 0.5 * sigma ^ 2) * T) /
        (sigma * Real.sqrt T) := rfl

theorem d1_formula_witness :
    d1 1 1 1 0 1 =
      (Real.log (1 / 1) + (0 + 0.5 * 1 ^ 2) * 1) / (1 * Real.sqrt 1) :=
  d1_formula 1 1 1 0 1 (by norm_num) (by norm_num) (by norm_num) (by norm_num)

/-- Claim C6: for every input with `S, K, T, sigma > 0`, the operation `d2`
returns `d1 S K T r sigma - sigma * sqrt T`. -/
theorem d2_formula (S K T r sigma : ℝ) (hS : 0 < S) (hK : 0 < K) (hT : 0 < T)
    (hsig : 0 < sigma) :
    d2 S K T r sigma = d1 S K T r sigma - sigma * Real.sqrt T := rfl

theorem d2_formula_witness :
    d2 1 1 1 0 1 = d1 1 1 1 0 1 - 1 * Real.sqrt 1 :=
  d2_formula 1 1 1 0 1 (by norm_num) (by norm_num) (by norm_num) (by norm_num)

/-- Claim C4: for every input with `S, K, T, sigma > 0`, `calculate_greeks`
returns exactly the quadruple
`delta = Phi (d1)`,
`theta = -(S * phi (d1) * sigma) / (2 * sqrt T) - r * K * exp (-r * T) * Phi (d2)`,
`vega = S * phi (d1) * sqrt T`,
`rho = K * T * exp (-r * T) * Phi (d2)`,
with `d1`, `d2` the engine operations on the same input, `Phi` the standard
normal CDF and `phi` its density. -/
theorem calculate_greeks_formula (S K T r sigma : ℝ) (hS : 0 < S) (hK : 0 < K)
    (hT : 0 < T) (hsig : 0 < sigma) :
    calculate_greeks S K T r sigma =
      (norm_cdf (d1 S K T r sigma),
        -(S * norm_pdf (d1 S K T r sigma) * sigma) / (2 * Real.sqrt T) -
          r * K * Real.exp (-r * T) * norm_cdf (d2 S K T r sigma),
        S * norm_pdf (d1 S K T r sigma) * Real.sqrt T,
        K * T * Real.exp (-r * T) * norm_cdf (d2 S K T r sigma)) := by
  simp only [calculate_greeks, Prod.mk.injEq, true_and, and_true]
  ring

theorem calculate_greeks_formula_witness :
    calculate_greeks 1 1 1 0 1 =
      (norm_cdf (d1 1 1 1 0 1),
        -(1 * norm_pdf (d1 1 1 1 0 1) * 1) / (2 * Real.sqrt 1) -
          0 * 1 * Real.exp (-0 * 1) * norm_cdf (d2 1 1 1 0 1),
        1 * norm_pdf (d1 1 1 1 0 1) * Real.sqrt 1,
        1 * 1 * Real.exp (-0 * 1) * norm_cdf (d2 1 1 1 0 1)) :=
  calculate_greeks_formula 1 1 1 0 1 (by norm_num) (by norm_num) (by norm_num)
    (by norm_num)

/-- Claim C10: homogeneity of degree one. For every `lam > 0` and every
input with `S, K, T, sigma > 0`, scaling both `S` and `K` by `lam` leaves
`d1` and `d2` unchanged (so they depend on `S` and `K` only through the
ratio `S / K`) and scales both components of the result of `black_scholes`
by `lam`. -/
theorem black_scholes_homogeneous (lam S K T r sigma : ℝ) (hlam : 0 < lam)
    (hS : 0 < S) (hK : 0 < K) (hT : 0 < T) (hsig : 0 < sigma) :
    d1 (lam * S) (lam * K) T r sigma = d1 S K T r sigma ∧
    d2 (lam * S) (lam * K) T r sigma = d2 S K T r sigma ∧
    black_scholes (lam * S) (lam * K) T r sigma =
      (lam * (black_scholes S K T r sigma).1,
        lam * (black_scholes S K T r sigma).2) := by
  have hratio : lam * S / (lam * K) = S / K := by
    rw [mul_div_mul_left _ _ hlam.ne']
  have hd1 : d1 (lam * S) (lam * K) T r sigma = d1 S K T r sigma := by
    rw [d1, d1, hratio]
  have hd2 : d2 (lam * S) (lam * K) T r sigma = d2 S K T r sigma := by
    rw [d2, d2, hd1]
  refine ⟨hd1, hd2, ?_⟩
  simp only [black_scholes, hd1, hd2, Prod.mk.injEq]
  exact ⟨by ring, by ring⟩

theorem black_scholes_homogeneous_witness :
    d1 (2 * 1) (2 * 1) 1 0 1 = d1 1 1 1 0 1 ∧
    d2 (2 * 1) (2 * 1) 1 0 1 = d2 1 1 1 0 1 ∧
    black_scholes (2 * 1) (2 * 1) 1 0 1 =
      (2 * (black_scholes 1 1 1 0 1).1, 2 * (black_scholes 1 1 1 0 1).2) :=
  black_scholes_homogeneous 2 1 1 1 0 1 (by norm_num) (by norm_num)
    (by norm_num) (by norm_num) (by norm_num)

/-- Claim C3, counterexample: called at `T = 0`, `sigma = 0`, `S = -1` and
`K = 0` (other parameters in-domain), the engine of `src/app.py` does not
signal any `InvalidParameter` error: every run completes and returns a
numeric pair. -/
theorem engine_no_validation_cex :
    (black_scholesRun 100 100 0 (1/20) (1/5)).isOk = true ∧
    (black_scholesRun 100 100 1 (1/20) 0).isOk = true ∧
    (black_scholesRun (-1) 100 1 (1/20) (1/5)).isOk = true ∧
    (black_scholesRun 100 0 1 (1/20) (1/5)).isOk = true :=
  ⟨rfl, rfl, rfl, rfl⟩

/-- Claim C3, amended: the engine performs no input validation at all. For
every input, including `T = 0`, `sigma = 0`, `S = -1` and `K = 0`, the run
returns a numeric pair and never signals `InvalidParameter`. -/
theorem engine_no_validation (S K T r sigma : ℝ) :
    black_scholesRun S K T r sigma =
      Except.ok (black_scholes S K T r sigma) := rfl

theorem hasDerivAt_norm_cdf (x : ℝ) : HasDerivAt norm_cdf (norm_pdf x) x := by
  have h : HasDerivAt (fun u : ℝ => ∫ t in (0:ℝ)..u, norm_pdf t)
      (norm_pdf x) x :=
    (continuous_norm_pdf.integral_hasStrictDerivAt 0 x).hasDerivAt
  have h2 : HasDerivAt (fun u : ℝ => 1 / 2 + ∫ t in (0:ℝ)..u, norm_pdf t)
      (norm_pdf x) x := h.const_add (1 / 2 : ℝ)
  exact h2

theorem hasDerivAt_norm_pdf (x : ℝ) :
    HasDerivAt norm_pdf (-x * norm_pdf x) x := by
  have h0 := ((hasDerivAt_pow 2 x).neg.div_const 2).exp
  have h3 := h0.const_mul ((Real.sqrt (2 * Real.pi))⁻¹)
  have he : -x * norm_pdf x =
      (Real.sqrt (2 * Real.pi))⁻¹ *
        (Real.exp (-(x ^ 2) / 2) * (-(↑2 * x ^ (2 - 1)) / 2)) := by
    rw [norm_pdf]
    norm_num
    ring
  rw [he]
  exact h3

/-- Key density identity behind the Greeks: the two terms produced by
differentiating the call price in the spot cancel. -/
theorem spot_pdf_identity (S K T r sigma : ℝ) (hS : 0 < S) (hK : 0 < K)
    (hT : 0 < T) (hsig : 0 < sigma) :
    S * norm_pdf (d1 S K T r sigma) =
      K * Real.exp (-r * T) * norm_pdf (d2 S K T r sigma) := by
  have hb : (0:ℝ) < sigma * Real.sqrt T := by
    have := Real.sqrt_pos.mpr hT
    positivity
  have hd1b : d1 S K T r sigma * (sigma * Real.sqrt T) =
      Real.log (S / K) + (r + 0.5 * sigma ^ 2) * T := by
    rw [d1, div_mul_cancel₀ _ hb.ne']
  have hb2 : (sigma * Real.sqrt T) ^ 2 = sigma ^ 2 * T := by
    rw [mul_pow, Real.sq_sqrt hT.le]
  have hdiff : d1 S K T r sigma ^ 2 - d2 S K T r sigma ^ 2 =
      2 * (Real.log (S / K) + r * T) := by
    rw [d2]
    linear_combination 2 * hd1b - hb2
  obtain ⟨A, hA⟩ : ∃ A, d1 S K T r sigma = A := ⟨_, rfl⟩
  obtain ⟨B, hB⟩ : ∃ B, d2 S K T r sigma = B := ⟨_, rfl⟩
  rw [hA, hB] at hdiff ⊢
  rw [Real.log_div hS.ne' hK.ne'] at hdiff
  have key : S * Real.exp (-(A ^ 2) / 2) =
      K * Real.exp (-r * T) * Real.exp (-(B ^ 2) / 2) := by
    rw [← Real.exp_log hS, ← Real.exp_log hK, ← Real.exp_add, ← Real.exp_add,
      ← Real.exp_add]
    congr 1
    linear_combination (-1/2 : ℝ) * hdiff
  rw [norm_pdf, norm_pdf]
  linear_combination (Real.sqrt (2 * Real.pi))⁻¹ * key

/-- Derivative of the call price in the spot: the delta of the call is the
normal CDF at `d1`, because the two density terms cancel through
`spot_pdf_identity`. -/
theorem hasDerivAt_call (K T r sigma S : ℝ) (hK : 0 < K) (hT : 0 < T)
    (hsig : 0 < sigma) (hS : 0 < S) :
    HasDerivAt (fun u => (black_scholes u K T r sigma).1)
      (norm_cdf (d1 S K T r sigma)) S := by
  have hb : (0:ℝ) < sigma * Real.sqrt T := by
    have := Real.sqrt_pos.mpr hT
    positivity
  have hlog : HasDerivAt (fun u : ℝ =>
      (Real.log u - Real.log K + (r + 0.5 * sigma ^ 2) * T) /
        (sigma * Real.sqrt T))
      (S⁻¹ / (sigma * Real.sqrt T)) S :=
    (((Real.hasDerivAt_log hS.ne').sub_const (Real.log K)).add_const
      ((r + 0.5 * sigma ^ 2) * T)).div_const (sigma * Real.sqrt T)
  have hEq : (fun u : ℝ => d1 u K T r sigma) =ᶠ[nhds S] fun u : ℝ =>
      (Real.log u - Real.log K + (r + 0.5 * sigma ^ 2) * T) /
        (sigma * Real.sqrt T) := by
    filter_upwards [eventually_gt_nhds hS] with u hu
    rw [d1, Real.log_div hu.ne' hK.ne']
  have hd1 : HasDerivAt (fun u : ℝ => d1 u K T r sigma)
      (S⁻¹ / (sigma * Real.sqrt T)) S := hlog.congr_of_eventuallyEq hEq
  have hd2 : HasDerivAt (fun u : ℝ => d2 u K T r sigma)
      (S⁻¹ / (sigma * Real.sqrt T)) S := by
    have h := hd1.sub_const (sigma * Real.sqrt T)
    exact h
  have hc1 : HasDerivAt (fun u : ℝ => norm_cdf (d1 u K T r sigma))
      (norm_pdf (d1 S K T r sigma) * (S⁻¹ / (sigma * Real.sqrt T))) S :=
    (hasDerivAt_norm_cdf (d1 S K T r sigma)).comp S hd1
  have hc2 : HasDerivAt (fun u : ℝ => norm_cdf (d2 u K T r sigma))
      (norm_pdf (d2 S K T r sigma) * (S⁻¹ / (sigma * Real.sqrt T))) S :=
    (hasDerivAt_norm_cdf (d2 S K T r sigma)).comp S hd2
  have hterm1 : HasDerivAt (fun u : ℝ => u * norm_cdf (d1 u K T r sigma))
      (1 * norm_cdf (d1 S K T r sigma) +
        S * (norm_pdf (d1 S K T r sigma) * (S⁻¹ / (sigma * Real.sqrt T)))) S :=
    (hasDerivAt_id S).mul hc1
  have hterm2 : HasDerivAt (fun u : ℝ =>
      K * Real.exp (-r * T) * norm_cdf (d2 u K T r sigma))
      (K * Real.exp (-r * T) *
        (norm_pdf (d2 S K T r sigma) * (S⁻¹ / (sigma * Real.sqrt T)))) S :=
    hc2.const_mul _
  have htotal := hterm1.sub hterm2
  have hkey := spot_pdf_identity S K T r sigma hS hK hT hsig
  have hval : 1 * norm_cdf (d1 S K T r sigma) +
      S * (norm_pdf (d1 S K T r sigma) * (S⁻¹ / (sigma * Real.sqrt T))) -
      K * Real.exp (-r * T) *
        (norm_pdf (d2 S K T r sigma) * (S⁻¹ / (sigma * Real.sqrt T))) =
      norm_cdf (d1 S K T r sigma) := by
    linear_combination (S⁻¹ / (sigma * Real.sqrt T)) * hkey
  rw [hval] at htotal
  exact htotal

theorem call_monotoneOn (K T r sigma : ℝ) (hK : 0 < K) (hT : 0 < T)
    (hsig : 0 < sigma) :
    MonotoneOn (fun u => (black_scholes u K T r sigma).1) (Ioi (0:ℝ)) := by
  apply monotoneOn_of_deriv_nonneg (convex_Ioi 0)
  · intro u hu
    exact (hasDerivAt_call K T r sigma u hK hT hsig hu).continuousAt.continuousWithinAt
  · intro u hu
    rw [interior_Ioi] at hu
    exact (hasDerivAt_call K T r sigma u hK hT hsig hu).differentiableAt.differentiableWithinAt
  · intro u hu
    rw [interior_Ioi] at hu
    rw [(hasDerivAt_call K T r sigma u hK hT hsig hu).deriv]
    exact norm_cdf_nonneg _

theorem spot_sub_call_monotoneOn (K T r sigma : ℝ) (hK : 0 < K) (hT : 0 < T)
    (hsig : 0 < sigma) :
    MonotoneOn (fun u => u - (black_scholes u K T r sigma).1) (Ioi (0:ℝ)) := by
  apply monotoneOn_of_deriv_nonneg (convex_Ioi 0)
  · intro u hu
    exact ((hasDerivAt_id u).sub
      (hasDerivAt_call K T r sigma u hK hT hsig hu)).continuousAt.continuousWithinAt
  · intro u hu
    rw [interior_Ioi] at hu
    exact ((hasDerivAt_id u).sub
      (hasDerivAt_call K T r sigma u hK hT hsig hu)).differentiableAt.differentiableWithinAt
  · intro u hu
    rw [interior_Ioi] at hu
    have h2 : HasDerivAt (fun v : ℝ => v - (black_scholes v K T r sigma).1)
        (1 - norm_cdf (d1 u K T r sigma)) u :=
      (hasDerivAt_id u).sub (hasDerivAt_call K T r sigma u hK hT hsig hu)
    rw [h2.deriv]
    have := norm_cdf_le_one (d1 u K T r sigma)
    linarith

/-- Claim C8: monotonicity in the spot. For inputs differing only in the
spot, with `0 < S1 ≤ S2` and `K, T, sigma > 0` fixed, the call price is
non-decreasing and the put price is non-increasing in the spot. -/
theorem black_scholes_monotone_in_spot (S1 S2 K T r sigma : ℝ) (hS1 : 0 < S1)
    (h12 : S1 ≤ S2) (hK : 0 < K) (hT : 0 < T) (hsig : 0 < sigma) :
    (black_scholes S1 K T r sigma).1 ≤ (black_scholes S2 K T r sigma).1 ∧
    (black_scholes S2 K T r sigma).2 ≤ (black_scholes S1 K T r sigma).2 := by
  have hS2 : 0 < S2 := lt_of_lt_of_le hS1 h12
  have hcall := call_monotoneOn K T r sigma hK hT hsig
    (mem_Ioi.mpr hS1) (mem_Ioi.mpr hS2) h12
  have hg := spot_sub_call_monotoneOn K T r sigma hK hT hsig
    (mem_Ioi.mpr hS1) (mem_Ioi.mpr hS2) h12
  have p1 := parity_aux S1 K T r sigma
  have p2 := parity_aux S2 K T r sigma
  constructor
  · exact hcall
  · simp only at hg
    linarith

theorem black_scholes_monotone_in_spot_witness :
    (black_scholes 1 1 1 0 1).1 ≤ (black_scholes 2 1 1 0 1).1 ∧
    (black_scholes 2 1 1 0 1).2 ≤ (black_scholes 1 1 1 0 1).2 :=
  black_scholes_monotone_in_spot 1 2 1 1 0 1 (by norm_num) (by norm_num)
    (by norm_num) (by norm_num) (by norm_num)

theorem integrable_id_mul_norm_pdf : Integrable fun t : ℝ => t * norm_pdf t := by
  have h := integrable_mul_exp_neg_mul_sq (b := (1/2 : ℝ)) (by norm_num)
  have h2 := h.const_mul ((Real.sqrt (2 * Real.pi))⁻¹)
  have h3 : (fun t : ℝ =>
      (Real.sqrt (2 * Real.pi))⁻¹ * (t * Real.exp (-(1/2 : ℝ) * t ^ 2))) =
      fun t : ℝ => t * norm_pdf t := by
    funext t
    rw [norm_pdf, show -(1/2 : ℝ) * t ^ 2 = -(t ^ 2) / 2 by ring]
    ring
  rwa [h3] at h2

theorem tendsto_norm_pdf_atBot : Tendsto norm_pdf atBot (nhds 0) := by
  have hsq : Tendsto (fun t : ℝ => t ^ 2) atBot atTop := by
    have h := (tendsto_id (α := ℝ) (x := atBot)).atBot_mul_atBot
      (tendsto_id (α := ℝ) (x := atBot))
    have he : (fun t : ℝ => id t * id t) = fun t : ℝ => t ^ 2 := by
      funext t
      show t * t = t ^ 2
      ring
    rwa [he] at h
  have harg : Tendsto (fun t : ℝ => -(t ^ 2) / 2) atBot atBot :=
    (tendsto_neg_atTop_atBot.comp hsq).atBot_div_const (by norm_num)
  have hexp : Tendsto (fun t : ℝ => Real.exp (-(t ^ 2) / 2)) atBot (nhds 0) :=
    Real.tendsto_exp_atBot.comp harg
  have h := hexp.const_mul ((Real.sqrt (2 * Real.pi))⁻¹)
  rw [mul_zero] at h
  exact h

theorem integral_Iic_id_mul_norm_pdf (x : ℝ) :
    ∫ t in Iic x, t * norm_pdf t = -norm_pdf x := by
  have hderiv : ∀ t ∈ Iic x, HasDerivAt (fun u : ℝ => -norm_pdf u)
      (t * norm_pdf t) t := by
    intro t _
    have h := (hasDerivAt_norm_pdf t).neg
    rw [show -(-t * norm_pdf t) = t * norm_pdf t by ring] at h
    exact h
  have hint : IntegrableOn (fun t : ℝ => t * norm_pdf t) (Iic x) :=
    integrable_id_mul_norm_pdf.integrableOn
  have htend : Tendsto (fun u : ℝ => -norm_pdf u) atBot (nhds 0) := by
    have h := tendsto_norm_pdf_atBot.neg
    rwa [neg_zero] at h
  have h := MeasureTheory.integral_Iic_of_hasDerivAt_of_tendsto' hderiv hint htend
  rw [h]
  ring

/-- Mills-ratio style inequality for the standard normal law: the density
dominates `-x` times the CDF, the inequality behind monotonicity of
`norm_cdf / norm_pdf`. -/
theorem mills_aux (x : ℝ) : 0 ≤ norm_pdf x + x * norm_cdf x := by
  rcases le_or_lt 0 x with hx | hx
  · have h1 := mul_nonneg hx (norm_cdf_nonneg x)
    have h2 := (norm_pdf_pos x).le
    linarith
  · have hcdf := norm_cdf_eq_integral_Iic x
    have hmono : ∀ t ∈ Iic x, norm_pdf t ≤ t / x * norm_pdf t := by
      intro t ht
      have h1 : (1:ℝ) ≤ t / x := by
        rw [le_div_iff_of_neg hx]
        simpa using ht
      nlinarith [(norm_pdf_pos t).le]
    have hfun : (fun t : ℝ => t / x * norm_pdf t) =
        fun t : ℝ => x⁻¹ * (t * norm_pdf t) := by
      funext t
      ring
    have hint1 : IntegrableOn norm_pdf (Iic x) :=
      integrable_norm_pdf.integrableOn
    have hint2 : IntegrableOn (fun t : ℝ => t / x * norm_pdf t) (Iic x) := by
      rw [hfun]
      exact (integrable_id_mul_norm_pdf.const_mul _).integrableOn
    have hle := setIntegral_mono_on hint1 hint2 measurableSet_Iic hmono
    rw [← hcdf] at hle
    have heq : ∫ t in Iic x, t / x * norm_pdf t = x⁻¹ * -norm_pdf x := by
      rw [hfun, integral_mul_left, integral_Iic_id_mul_norm_pdf]
    rw [heq] at hle
    have h2 : -x * norm_cdf x ≤ -x * (x⁻¹ * -norm_pdf x) :=
      mul_le_mul_of_nonneg_left hle (by linarith)
    have h3 : -x * (x⁻¹ * -norm_pdf x) = norm_pdf x := by
      field_simp
      exact mul_div_cancel_left₀ _ hx.ne
    linarith

theorem hasDerivAt_cdf_div_pdf (x : ℝ) :
    HasDerivAt (fun u : ℝ => norm_cdf u / norm_pdf u)
      ((norm_pdf x * norm_pdf x - norm_cdf x * (-x * norm_pdf x)) /
        norm_pdf x ^ 2) x :=
  (hasDerivAt_norm_cdf x).div (hasDerivAt_norm_pdf x) (norm_pdf_pos x).ne'

theorem monotone_cdf_div_pdf : Monotone fun x : ℝ => norm_cdf x / norm_pdf x := by
  apply monotone_of_deriv_nonneg
  · intro x
    exact (hasDerivAt_cdf_div_pdf x).differentiableAt
  · intro x
    rw [(hasDerivAt_cdf_div_pdf x).deriv]
    apply div_nonneg
    · nlinarith [mul_nonneg (norm_pdf_pos x).le (mills_aux x)]
    · positivity

/-- Claim C9: non-negative prices. For every input with `S, K, T, sigma > 0`
both components of the pair returned by `black_scholes` are non-negative. -/
theorem black_scholes_nonneg (S K T r sigma : ℝ) (hS : 0 < S) (hK : 0 < K)
    (hT : 0 < T) (hsig : 0 < sigma) :
    0 ≤ (black_scholes S K T r sigma).1 ∧
    0 ≤ (black_scholes S K T r sigma).2 := by
  have hb : (0:ℝ) < sigma * Real.sqrt T := by
    have := Real.sqrt_pos.mpr hT
    positivity
  have hd21 : d2 S K T r sigma ≤ d1 S K T r sigma := by
    rw [d2]
    linarith
  have hkey := spot_pdf_identity S K T r sigma hS hK hT hsig
  simp only [black_scholes]
  obtain ⟨A, hA⟩ : ∃ A, d1 S K T r sigma = A := ⟨_, rfl⟩
  obtain ⟨B, hB⟩ : ∃ B, d2 S K T r sigma = B := ⟨_, rfl⟩
  rw [hA, hB] at hd21 hkey ⊢
  have hm := monotone_cdf_div_pdf hd21
  simp only at hm
  rw [div_le_div_iff₀ (norm_pdf_pos B) (norm_pdf_pos A)] at hm
  have hcall : K * Real.exp (-r * T) * norm_cdf B ≤ S * norm_cdf A := by
    have h1 : S * (norm_cdf B * norm_pdf A) ≤ S * (norm_cdf A * norm_pdf B) :=
      mul_le_mul_of_nonneg_left hm hS.le
    have h3 : norm_cdf B * (S * norm_pdf A) =
        norm_cdf B * (K * Real.exp (-r * T) * norm_pdf B) := by
      rw [hkey]
    have h2 : K * Real.exp (-r * T) * norm_cdf B * norm_pdf B ≤
        S * norm_cdf A * norm_pdf B := by
      linarith
    exact le_of_mul_le_mul_right h2 (norm_pdf_pos B)
  have hm2 := monotone_cdf_div_pdf (neg_le_neg hd21)
  simp only at hm2
  rw [norm_pdf_neg, norm_pdf_neg,
    div_le_div_iff₀ (norm_pdf_pos A) (norm_pdf_pos B)] at hm2
  have hput : S * norm_cdf (-A) ≤ K * Real.exp (-r * T) * norm_cdf (-B) := by
    have h1 : S * (norm_cdf (-A) * norm_pdf B) ≤
        S * (norm_cdf (-B) * norm_pdf A) :=
      mul_le_mul_of_nonneg_left hm2 hS.le
    have h3 : norm_cdf (-B) * (S * norm_pdf A) =
        norm_cdf (-B) * (K * Real.exp (-r * T) * norm_pdf B) := by
      rw [hkey]
    have h2 : S * norm_cdf (-A) * norm_pdf B ≤
        K * Real.exp (-r * T) * norm_cdf (-B) * norm_pdf B := by
      linarith
    exact le_of_mul_le_mul_right h2 (norm_pdf_pos B)
  constructor
  · linarith
  · linarith

theorem black_scholes_nonneg_witness :
    0 ≤ (black_scholes 1 1 1 0 1).1 ∧ 0 ≤ (black_scholes 1 1 1 0 1).2 :=
  black_scholes_nonneg 1 1 1 0 1 (by norm_num) (by norm_num) (by norm_num)
    (by norm_num)

/-- Claim C7: Greek bounds. For every input with `S, K, T, sigma > 0` and
`r ≥ 0`, the results of `calculate_greeks` satisfy `delta ∈ [0, 1]`,
`vega ≥ 0` and `rho ≥ 0`. -/
theorem greeks_bounds (S K T r sigma : ℝ) (hS : 0 < S) (hK : 0 < K)
    (hT : 0 < T) (hsig : 0 < sigma) (hr : 0 ≤ r) :
    (0 ≤ (calculate_greeks S K T r sigma).1 ∧
      (calculate_greeks S K T r sigma).1 ≤ 1) ∧
    0 ≤ (calculate_greeks S K T r sigma).2.2.1 ∧
    0 ≤ (calculate_greeks S K T r sigma).2.2.2 := by
  refine ⟨⟨norm_cdf_nonneg _, norm_cdf_le_one _⟩, ?_, ?_⟩
  · show 0 ≤ S * norm_pdf (d1 S K T r sigma) * Real.sqrt T
    exact mul_nonneg (mul_nonneg hS.le (norm_pdf_pos _).le) (Real.sqrt_nonneg T)
  · show 0 ≤ K * T * Real.exp (-r * T) * norm_cdf (d2 S K T r sigma)
    exact mul_nonneg
      (mul_nonneg (mul_nonneg hK.le hT.le) (Real.exp_pos _).le)
      (norm_cdf_nonneg _)

theorem greeks_bounds_witness :
    (0 ≤ (calculate_greeks 1 1 1 0 1).1 ∧ (calculate_greeks 1 1 1 0 1).1 ≤ 1) ∧
    0 ≤ (calculate_greeks 1 1 1 0 1).2.2.1 ∧
    0 ≤ (calculate_greeks 1 1 1 0 1).2.2.2 :=
  greeks_bounds 1 1 1 0 1 (by norm_num) (by norm_num) (by norm_num)
    (by norm_num) (by norm_num)
